import Mathlib

/-!
Verification of the `parsimpl` scanning library (src/src/lib.rs).

Rust strings are modelled as lists of bytes (`BStr`); all offsets in the
source are byte offsets, and `&s[a..b]` is modelled by `slice`.  Rust byte
slicing additionally panics when an index is out of bounds or not on a
UTF-8 character boundary; in `Parser.error`, where the claims are about
exactly that behaviour, the boundary checks are modelled explicitly and a
panic is an `Except.error ()`.  The regex engine is an external
collaborator: it is modelled as an abstract `find` function returning the
first match as a pair of byte offsets into the searched string.
-/

deriving instance DecidableEq for Except

namespace Parsimpl

/-- Byte strings: a Rust `str` viewed as its list of bytes. -/
abbrev BStr := List Nat

/-- Bytes of an ASCII Lean string literal (used only to spell constants). -/
def strBytes (s : String) : BStr := s.data.map Char.toNat

/-- Model of the byte range `&s[a..b]`. -/
def slice (s : BStr) (a b : Nat) : BStr := (s.take b).drop a

/-- True when `b` is a UTF-8 continuation byte (bit pattern 10xxxxxx). -/
def isContByte (b : Nat) : Bool := decide (0x80 ≤ b) && decide (b < 0xC0)

/-- Model of `str::is_char_boundary` at byte index `i` of `l`. -/
def isCharBoundary (l : BStr) (i : Nat) : Bool :=
  match l.get? i with
  | some b => !isContByte b
  | none => decide (i = l.length)

/-- Decodes the first UTF-8 character of `s` as (code point, byte width).
Mirrors what `str::chars`/`char` operations see on the (always valid)
UTF-8 contents of a Rust string. -/
def utf8First : BStr → Option (Nat × Nat)
  | [] => none
  | b :: rest =>
    if b < 0x80 then some (b, 1)
    else if b < 0xE0 then
      match rest with
      | b1 :: _ => some ((b % 0x20) * 0x40 + b1 % 0x40, 2)
      | [] => none
    else if b < 0xF0 then
      match rest with
      | b1 :: b2 :: _ => some (((b % 0x10) * 0x40 + b1 % 0x40) * 0x40 + b2 % 0x40, 3)
      | _ => none
    else
      match rest with
      | b1 :: b2 :: b3 :: _ =>
        some ((((b % 0x8) * 0x40 + b1 % 0x40) * 0x40 + b2 % 0x40) * 0x40 + b3 % 0x40, 4)
      | _ => none

/-- Model of `char::is_whitespace`: the Unicode White_Space code points. -/
def isWhitespaceCP (c : Nat) : Bool :=
  c == 0x09 || c == 0x0A || c == 0x0B || c == 0x0C || c == 0x0D || c == 0x20 ||
  c == 0x85 || c == 0xA0 || c == 0x1680 ||
  (decide (0x2000 ≤ c) && decide (c ≤ 0x200A)) ||
  c == 0x2028 || c == 0x2029 || c == 0x202F || c == 0x205F || c == 0x3000

/-- Worker for `trimLeft`.  The fuel argument only forces structural
termination; each step consumes at least one byte, so `s.length` fuel is
always enough and the fuel case is never the one that stops. -/
def trimLeftAux : Nat → BStr → BStr
  | 0, s => s
  | fuel + 1, s =>
    match utf8First s with
    | none => s
    | some cw => if isWhitespaceCP cw.1 then trimLeftAux fuel (s.drop cw.2) else s

/-- Model of `str::trim_left`: drops the maximal leading run of
`char::is_whitespace` characters. -/
def trimLeft (s : BStr) : BStr := trimLeftAux s.length s

/-- Position handle (struct `Pos`): an opaque capture of the cursor. -/
structure Pos where
  pos : Nat
deriving DecidableEq

/-- Parse error (struct `ParsErr`). -/
structure ParsErr where
  pos : Nat × Nat
  msg : List BStr
  prf : BStr
  tkn : BStr
  suf : BStr
deriving DecidableEq

/-- Model of `ParsErr::push`. -/
def ParsErr.push (e : ParsErr) (m : BStr) : ParsErr := { e with msg := e.msg ++ [m] }

/-- Decimal rendering of a number, as in `format!` of a `usize`. -/
def natBytes (n : Nat) : BStr := (Nat.toDigits 10 n).map Char.toNat

/-- Model of `ParsErr::default_lines`: the four groups of report lines, in
the order the source feeds them to the treatment closure.  The two
`format!` calls of the caret line pad an empty string to the width of
`prf` with spaces (byte 32) and to the width of `tkn` with carets
(byte 94). -/
def ParsErr.default_lines (e : ParsErr) : List BStr :=
  (strBytes "Error at [" ++ natBytes e.pos.1 ++ strBytes ", " ++ natBytes e.pos.2
      ++ strBytes "]") ::
  e.msg ++
  [strBytes "| " ++ e.prf ++ e.tkn ++ e.suf,
   strBytes "| " ++ List.replicate e.prf.length 32 ++ List.replicate e.tkn.length 94]

/-- Model of `ParsErr::default_str`: folds over the report lines keeping a
`first` flag, pushing a newline before every line but the first. -/
def ParsErr.default_str (e : ParsErr) : BStr :=
  (e.default_lines.foldl
    (fun acc line => (false, if acc.1 then acc.2 ++ line else acc.2 ++ 10 :: line))
    (true, ([] : BStr))).2

/-- Scanner state (struct `Parser`).  The borrowed text is held by value;
the borrow itself has no observable effect on the scanning logic. -/
structure Parser where
  text : BStr
  pos : Nat
  line_offset : Nat
deriving DecidableEq

/-- Model of the external `Regex` collaborator: the pattern source text
(for error messages) and the `find` search, reporting the first match of
the pattern in the given string as (start, end) byte offsets. -/
structure Regex where
  src : BStr
  find : BStr → Option (Nat × Nat)

/-- Model of `Parser::new`. -/
def Parser.new (text : BStr) (line_offset : Nat) : Parser := ⟨text, 0, line_offset⟩

/-- Model of `Parser::set`: reassigns `text` and `line_offset` only. -/
def Parser.set (p : Parser) (text : BStr) (line_offset : Nat) : Parser :=
  { p with text := text, line_offset := line_offset }

/-- Model of `Parser::is_eof`. -/
def Parser.is_eof (p : Parser) : Bool := decide (p.text.length ≤ p.pos)

/-- Model of `Parser::chars_left`. -/
def Parser.chars_left (p : Parser) : Nat :=
  if p.is_eof then 0 else p.text.length - p.pos - 1

/-- Model of `Parser::rest`, the slice `&text[pos..]`. -/
def Parser.rest (p : Parser) : BStr := p.text.drop p.pos

/-- Model of `Parser::ws`: trims the rest and advances by the difference
of lengths. -/
def Parser.ws (p : Parser) : Parser :=
  { p with pos := p.pos + ((p.text.drop p.pos).length - (trimLeft (p.text.drop p.pos)).length) }

/-- Model of `Parser::try_tag`.  The result pairs the returned boolean
with the scanner state after the call. -/
def Parser.try_tag (p : Parser) (tag : BStr) : Bool × Parser :=
  if p.chars_left < tag.length then (false, p)
  else if slice p.text p.pos (p.pos + tag.length) = tag then
    (true, { p with pos := p.pos + tag.length })
  else (false, p)

/-- Sentinel token used by `Parser::error` when the loop breaks exactly at
the end of a line: the two-byte string backslash-n. -/
def nlTkn : BStr := strBytes "\\n"

/-- Sentinel token `Parser::error` starts from and keeps when the offset
lies past the last line. -/
def eofTkn : BStr := strBytes "<eof>"

/-- Strips one trailing carriage return, as the `lines` iterator does to
every line that had a newline terminator. -/
def rstripCr (l : BStr) : BStr := if l.getLast? = some 13 then l.dropLast else l

/-- Full split of a byte string at every newline byte; always returns one
segment more than the number of newlines (never the empty list). -/
def splitNl : BStr → List BStr
  | [] => [[]]
  | b :: rest =>
    if b = 10 then [] :: splitNl rest
    else
      match splitNl rest with
      | [] => [[b]]
      | s :: ss => (b :: s) :: ss

/-- Model of `str::lines`.  Every segment except the last had a newline
terminator removed and additionally loses one trailing carriage return;
the final, terminator-less segment is dropped when empty and kept verbatim
otherwise. -/
def linesOf (t : BStr) : List BStr :=
  (splitNl t).dropLast.map rstripCr ++
  (match (splitNl t).getLast? with
   | some [] => []
   | some l => [l]
   | none => [])

/-- The loop of `Parser::error` over the lines of the text: threads the
residual offset and the line counter, breaking inside a line (slicing the
excerpt, with the panic conditions of Rust byte slicing made explicit), or
exactly at a line end, or falling through past every line.  Returns the
final line count, residual offset, and (prf, tkn, suf); `Except.error ()`
is a panic. -/
def errLoop : List BStr → Nat → Nat → Except Unit (Nat × Nat × BStr × BStr × BStr)
  | [], q, lc => Except.ok (lc, q, [], eofTkn, [])
  | line :: rest, q, lc =>
    if q < line.length then
      if isCharBoundary line q && isCharBoundary line (q + 1) then
        Except.ok (lc + 1, q, slice line 0 q, slice line q (q + 1),
          slice line (q + 1) line.length)
      else Except.error ()
    else if q = line.length then
      Except.ok (lc + 1, q, line, nlTkn, [])
    else errLoop rest (q - (line.length + 1)) (lc + 1)

/-- Model of `Parser::error`: walks the lines of the text starting the
line counter at `line_offset`, then assembles the `ParsErr` with a 1-based
column. -/
def Parser.error (p : Parser) (pos : Pos) (msg : BStr) : Except Unit ParsErr :=
  match errLoop (linesOf p.text) pos.pos p.line_offset with
  | Except.ok (lc, q, prf, tkn, suf) => Except.ok ⟨(lc, q + 1), [msg], prf, tkn, suf⟩
  | Except.error () => Except.error ()

/-- Model of `Parser::error_here`: an error at the current cursor. -/
def Parser.error_here (p : Parser) (msg : BStr) : Except Unit ParsErr :=
  p.error ⟨p.pos⟩ msg

/-- Message built by `Parser::tag` on failure. -/
def tagMsg (t : BStr) : BStr := strBytes "expected tag `" ++ t ++ strBytes "`"

/-- Model of `Parser::tag`: runs `try_tag`, building an error at the
(unchanged) cursor on failure.  The outer `Except Unit` is a panic while
building the error. -/
def Parser.tag (p : Parser) (t : BStr) : Except Unit (Except ParsErr Unit) × Parser :=
  let r := p.try_tag t
  if r.1 then (Except.ok (Except.ok ()), r.2)
  else ((r.2.error_here (tagMsg t)).map Except.error, r.2)

/-- Model of `Parser::try_re`: searches the pattern in `&text[pos..]`; a
match is used only when it starts at relative offset 0, in which case the
cursor moves to the absolute match end and the matched bytes
`text[old pos .. new pos]` are returned (as an owned copy in the
source). -/
def Parser.try_re (p : Parser) (re : Regex) : Option BStr × Parser :=
  match re.find (p.text.drop p.pos) with
  | some (st, en) =>
    if st = 0 then
      (some (slice p.text p.pos (p.pos + en)), { p with pos := p.pos + en })
    else (none, p)
  | none => (none, p)

/-- Message built by `Parser::re` on failure. -/
def reMsg (r : Regex) : BStr := strBytes "no match for regex `" ++ r.src ++ strBytes "`"

/-- Model of `Parser::re`: runs `try_re`, building an error at the
(unchanged) cursor on failure. -/
def Parser.re (p : Parser) (r : Regex) : Except Unit (Except ParsErr BStr) × Parser :=
  let res := p.try_re r
  match res.1 with
  | some v => (Except.ok (Except.ok v), res.2)
  | none => ((res.2.error_here (reMsg r)).map Except.error, res.2)

/-- The documented cursor invariant: the cursor sits inside the text. -/
abbrev Parser.inv (p : Parser) : Prop := p.pos ≤ p.text.length

/-- Well-formedness of the external matcher: a reported match is an
ordered pair of offsets into the searched string.  The real regex engine
guarantees this. -/
def Regex.wf (r : Regex) : Prop :=
  ∀ l st en, r.find l = some (st, en) → st ≤ en ∧ en ≤ l.length

/-- Result classifier shared by `tag` and `re`: anything but a fully
successful return (including a panic while rendering the error) counts as
a failure. -/
def isParseFail {α : Type} : Except Unit (Except ParsErr α) → Bool
  | Except.ok (Except.ok _) => false
  | _ => true

/-- Spec-side rendering: join a list of lines with single newlines. -/
def joinNl : List BStr → BStr
  | [] => []
  | [l] => l
  | l :: ls => l ++ 10 :: joinNl ls

/-- Spec-side predicate: the first `n` bytes of `s` decompose into whole
characters that all satisfy `char::is_whitespace`. -/
inductive WsRun : BStr → Nat → Prop
  | zero (s : BStr) : WsRun s 0
  | step (s : BStr) (c w n : Nat) : utf8First s = some (c, w) →
      isWhitespaceCP c = true → WsRun (s.drop w) n → WsRun s (w + n)

/-- Concatenation of lines, each preceded by one newline byte. -/
def nlCat : List BStr → BStr
  | [] => []
  | l :: ls => 10 :: (l ++ nlCat ls)

/-- Cost of a list of lines as the error loop consumes it: each line
accounts for its length plus one (its assumed one-byte terminator). -/
def gsum : List BStr → Nat
  | [] => 0
  | l :: ls => l.length + 1 + gsum ls

/-! General helper lemmas. -/

theorem slice_eq (s : BStr) (a n : Nat) : slice s a (a + n) = (s.drop a).take n :=
  (List.take_drop a n s).symm

theorem try_tag_fail (s : Parser) (t : BStr) (h : (s.try_tag t).1 = false) :
    (s.try_tag t).2 = s := by
  by_cases h1 : s.chars_left < t.length
  · simp [Parser.try_tag, h1]
  · by_cases h2 : slice s.text s.pos (s.pos + t.length) = t
    · exfalso
      simp [Parser.try_tag, h1, h2] at h
    · simp [Parser.try_tag, h1, h2]

theorem try_re_fail (s : Parser) (r : Regex) (h : (s.try_re r).1 = none) :
    (s.try_re r).2 = s := by
  rcases hf : r.find (s.text.drop s.pos) with _ | ⟨st, en⟩
  · simp [Parser.try_re, hf]
  · by_cases hst : st = 0
    · exfalso
      simp [Parser.try_re, hf, hst] at h
    · simp [Parser.try_re, hf, hst]

/-- C1: whenever a consuming operation fails (`try_tag` returns false,
`tag` does not return a success, `try_re` returns none, `re` does not
return a success), the scanner state — text, cursor and line offset — is
exactly as before the call. -/
theorem failure_atomicity :
    (∀ (s : Parser) (t : BStr), (s.try_tag t).1 = false → (s.try_tag t).2 = s) ∧
    (∀ (s : Parser) (t : BStr), isParseFail (s.tag t).1 = true → (s.tag t).2 = s) ∧
    (∀ (s : Parser) (r : Regex), (s.try_re r).1 = none → (s.try_re r).2 = s) ∧
    (∀ (s : Parser) (r : Regex), isParseFail (s.re r).1 = true → (s.re r).2 = s) := by
  refine ⟨try_tag_fail, ?_, try_re_fail, ?_⟩
  · intro s t h
    by_cases hb : (s.try_tag t).1 = true
    · exfalso
      simp [Parser.tag, hb, isParseFail] at h
    · have hb' : (s.try_tag t).1 = false := by
        revert hb
        cases (s.try_tag t).1 <;> simp
      simp [Parser.tag, hb']
      exact try_tag_fail s t hb'
  · intro s r h
    rcases hv : (s.try_re r).1 with _ | v
    · simp [Parser.re, hv]
      exact try_re_fail s r hv
    · exfalso
      simp [Parser.re, hv, isParseFail] at h

/-- C1 witness: concrete failures of all four operations leave the state
untouched. -/
theorem failure_atomicity_w :
    ((⟨[97, 98], 0, 0⟩ : Parser).try_tag [120]).2 = (⟨[97, 98], 0, 0⟩ : Parser) ∧
    ((⟨[97, 98], 0, 0⟩ : Parser).tag [120]).2 = (⟨[97, 98], 0, 0⟩ : Parser) ∧
    ((⟨[97, 98], 0, 0⟩ : Parser).try_re ⟨[113], fun _ => none⟩).2 = (⟨[97, 98], 0, 0⟩ : Parser) ∧
    ((⟨[97, 98], 0, 0⟩ : Parser).re ⟨[113], fun _ => none⟩).2 = (⟨[97, 98], 0, 0⟩ : Parser) :=
  ⟨failure_atomicity.1 _ _ (by decide),
   failure_atomicity.2.1 _ _ (by decide),
   failure_atomicity.2.2.1 _ _ rfl,
   failure_atomicity.2.2.2 _ _ (by decide)⟩

/-- C2 counterexample: on the buffer "ab" the rest starts with the tag
"ab", yet `try_tag` returns false, because the `chars_left` guard
undercounts by one and rejects a tag reaching exactly the end of the
buffer. -/
theorem try_tag_at_end_cex :
    (Parser.rest ⟨[97, 98], 0, 0⟩).take 2 = [97, 98] ∧
    ((⟨[97, 98], 0, 0⟩ : Parser).try_tag [97, 98]).1 = false := by
  decide

/-- C2 (amended): if the rest starts with `t` and is strictly longer than
`t` — equivalently `chars_left ≥ length t`, per the undercounting guard —
then `try_tag t` returns true and advances the cursor by exactly
`length t`; the new rest is the old rest with `t` stripped, so an
immediate second call scans fresh text. -/
theorem try_tag_matches (s : Parser) (t : BStr)
    (hm : (s.rest).take t.length = t) (hlen : t.length < (s.rest).length) :
    s.try_tag t = (true, { s with pos := s.pos + t.length }) ∧
    ((s.try_tag t).2).rest = (s.rest).drop t.length := by
  have hrl : (s.rest).length = s.text.length - s.pos := List.length_drop _ _
  have hpos : s.pos < s.text.length := by
    by_contra hc
    have : (s.rest).length = 0 := by
      rw [hrl]
      omega
    omega
  have heof : s.is_eof = false := by
    simp [Parser.is_eof]
    omega
  have hcl : ¬ (s.chars_left < t.length) := by
    simp [Parser.chars_left, heof]
    omega
  have hsl : slice s.text s.pos (s.pos + t.length) = t := by
    rw [slice_eq]
    exact hm
  refine ⟨by simp [Parser.try_tag, hcl, hsl], ?_⟩
  simp [Parser.try_tag, hcl, hsl, Parser.rest, List.drop_drop]

/-- C2 witness: on "ab " the tag "ab" matches and consumes two bytes. -/
theorem try_tag_matches_w :
    (⟨[97, 98, 32], 0, 0⟩ : Parser).try_tag [97, 98] =
      (true, (⟨[97, 98, 32], 2, 0⟩ : Parser)) ∧
    (((⟨[97, 98, 32], 0, 0⟩ : Parser).try_tag [97, 98]).2).rest = [32] :=
  (try_tag_matches ⟨[97, 98, 32], 0, 0⟩ [97, 98] (by decide) (by decide))

/-- C3: `try_re` uses a reported match only when it starts exactly at the
cursor (offset 0 of the rest); then the cursor advances to the match end
and the matched bytes `text[old pos .. new pos]` are returned.  A match
reported strictly later, or no match, returns none with the state
untouched. -/
theorem try_re_anchor (s : Parser) (r : Regex) :
    (r.find s.rest = none → s.try_re r = (none, s)) ∧
    (∀ st en, r.find s.rest = some (st, en) → st ≠ 0 → s.try_re r = (none, s)) ∧
    (∀ en, r.find s.rest = some (0, en) →
      s.try_re r = (some ((s.rest).take en), { s with pos := s.pos + en })) := by
  refine ⟨?_, ?_, ?_⟩
  · intro h
    unfold Parser.rest at h
    simp [Parser.try_re, h]
  · intro st en h hne
    unfold Parser.rest at h
    simp [Parser.try_re, h, hne]
  · intro en h
    unfold Parser.rest at h
    simp [Parser.try_re, h, slice_eq, Parser.rest]

/-- C3 witness: a matcher reporting no match, one anchored later, and one
anchored at the cursor, on the buffer "ab". -/
theorem try_re_anchor_w :
    (⟨[97, 98], 0, 0⟩ : Parser).try_re ⟨[], fun _ => none⟩ = (none, ⟨[97, 98], 0, 0⟩) ∧
    (⟨[97, 98], 0, 0⟩ : Parser).try_re ⟨[], fun _ => some (1, 2)⟩ = (none, ⟨[97, 98], 0, 0⟩) ∧
    (⟨[97, 98], 0, 0⟩ : Parser).try_re ⟨[], fun _ => some (0, 1)⟩ =
      (some [97], ⟨[97, 98], 1, 0⟩) :=
  ⟨(try_re_anchor _ _).1 rfl,
   (try_re_anchor _ _).2.1 1 2 rfl (by decide),
   (try_re_anchor _ _).2.2 1 rfl⟩

theorem foldl_nlCat (ls : List BStr) (acc : BStr) :
    (List.foldl
      (fun acc line => (false, if acc.1 then acc.2 ++ line else acc.2 ++ 10 :: line))
      (false, acc) ls).2 = acc ++ nlCat ls := by
  induction ls generalizing acc with
  | nil => simp [nlCat]
  | cons l ls ih =>
    simp only [List.foldl, nlCat]
    rw [ih]
    simp

theorem joinNl_nlCat (l : BStr) (ls : List BStr) : joinNl (l :: ls) = l ++ nlCat ls := by
  induction ls generalizing l with
  | nil => simp [joinNl, nlCat]
  | cons l2 ls ih =>
    show l ++ 10 :: joinNl (l2 :: ls) = l ++ nlCat (l2 :: ls)
    rw [ih]
    simp [nlCat]

/-- C5: the rendered report is the first line "Error at [line, column]",
then one line per message in push order, then the excerpt line
prefix-token-suffix behind a bar, then a caret line with one space per
prefix byte and one caret per token byte, all joined by `default_str`
with single newlines; on the test buffer the end-to-end rendering is
exactly the expected four-line string. -/
theorem default_render :
    (∀ e : ParsErr, e.default_str = joinNl e.default_lines) ∧
    ((((Parser.new (strBytes "   blah stuff ~") 0).ws.try_tag (strBytes "blah")).1 = true) ∧
     ((((Parser.new (strBytes "   blah stuff ~") 0).ws.try_tag (strBytes "blah")).2.ws.error_here
        (strBytes "life sux")).map ParsErr.default_str =
      Except.ok (strBytes "Error at [1, 9]\nlife sux\n|    blah stuff ~\n|         ^"))) := by
  refine ⟨?_, by decide, by decide⟩
  intro e
  show (List.foldl _ (true, ([] : BStr)) e.default_lines).2 = _
  cases hl : e.default_lines with
  | nil =>
    exfalso
    simp [ParsErr.default_lines] at hl
  | cons l ls =>
    simp only [List.foldl, List.nil_append]
    rw [foldl_nlCat, joinNl_nlCat]
    simp

/-- C9: `set` rebinds the text and the line offset and leaves the cursor
exactly as it was. -/
theorem set_frame (s : Parser) (t : BStr) (lo : Nat) :
    (s.set t lo).text = t ∧ (s.set t lo).pos = s.pos ∧ (s.set t lo).line_offset = lo :=
  ⟨rfl, rfl, rfl⟩

/-! Whitespace trimming lemmas. -/

theorem utf8First_some {s : BStr} {cw : Nat × Nat} (h : utf8First s = some cw) :
    1 ≤ cw.2 ∧ cw.2 ≤ s.length := by
  rcases s with _ | ⟨b, rest⟩
  · simp [utf8First] at h
  simp only [utf8First] at h
  split_ifs at h with h1 h2 h3
  · cases h
    simp
  · rcases rest with _ | ⟨b1, rest1⟩
    · simp at h
    · cases h
      simp
  · rcases rest with _ | ⟨b1, _ | ⟨b2, rest2⟩⟩
    · simp at h
    · simp at h
    · cases h
      simp
  · rcases rest with _ | ⟨b1, _ | ⟨b2, _ | ⟨b3, rest3⟩⟩⟩
    · simp at h
    · simp at h
    · simp at h
    · cases h
      simp

theorem trimLeftAux_spec (fuel : Nat) :
    ∀ s : BStr, s.length ≤ fuel →
    ∃ k, trimLeftAux fuel s = s.drop k ∧ k ≤ s.length ∧ WsRun s k ∧
      (∀ c w, utf8First (s.drop k) = some (c, w) → isWhitespaceCP c = false) := by
  induction fuel with
  | zero =>
    intro s hs
    have hnil : s = [] := List.length_eq_zero.mp (Nat.le_zero.mp hs)
    subst hnil
    exact ⟨0, rfl, Nat.le_refl 0, WsRun.zero [], by intro c w hcw; simp [utf8First] at hcw⟩
  | succ fuel ih =>
    intro s hs
    rcases hf : utf8First s with _ | ⟨c, w⟩
    · refine ⟨0, ?_, Nat.zero_le _, WsRun.zero s, ?_⟩
      · simp [trimLeftAux, hf]
      · intro c w hcw
        rw [List.drop_zero, hf] at hcw
        exact absurd hcw (by simp)
    · by_cases hws : isWhitespaceCP c
      · have hwb := utf8First_some hf
        have hlen : (s.drop w).length ≤ fuel := by
          rw [List.length_drop]
          simp at hwb
          omega
        obtain ⟨k, hk1, hk2, hk3, hk4⟩ := ih (s.drop w) hlen
        rw [List.length_drop] at hk2
        refine ⟨w + k, ?_, ?_, WsRun.step s c w k hf hws hk3, ?_⟩
        · show trimLeftAux (fuel + 1) s = _
          simp only [trimLeftAux, hf]
          rw [if_pos hws, hk1, List.drop_drop]
        · simp at hwb
          omega
        · intro c' w' h'
          rw [← List.drop_drop] at h'
          exact hk4 c' w' h'
      · refine ⟨0, ?_, Nat.zero_le _, WsRun.zero s, ?_⟩
        · simp only [trimLeftAux, hf]
          rw [if_neg hws, List.drop_zero]
        · intro c' w' h'
          rw [List.drop_zero, hf] at h'
          injection h' with h''
          cases h''
          simpa using hws

theorem trimLeft_spec (s : BStr) :
    ∃ k, trimLeft s = s.drop k ∧ k ≤ s.length ∧ WsRun s k ∧
      (∀ c w, utf8First (s.drop k) = some (c, w) → isWhitespaceCP c = false) :=
  trimLeftAux_spec s.length s (Nat.le_refl _)

theorem trimLeft_length_le (s : BStr) : (trimLeft s).length ≤ s.length := by
  obtain ⟨k, hk1, hk2, -, -⟩ := trimLeft_spec s
  rw [hk1, List.length_drop]
  omega

/-- C7 counterexample: on the buffer starting with a vertical tab
(byte 11), `ws` moves the cursor, although the character at the cursor is
none of space, tab, newline, carriage return — Rust `trim_left` uses the
full Unicode White_Space set, so the claimed no-op case is false. -/
theorem ws_whitespace_set_cex :
    utf8First (Parser.rest ⟨[11, 97], 0, 0⟩) = some (11, 1) ∧
    (11 : Nat) ≠ 32 ∧ (11 : Nat) ≠ 9 ∧ (11 : Nat) ≠ 10 ∧ (11 : Nat) ≠ 13 ∧
    (Parser.ws ⟨[11, 97], 0, 0⟩).pos = 1 := by
  decide

/-- C7 (amended): `ws` only moves the cursor forward, never past the end
of the rest, always terminates, and advances over exactly the maximal run
of leading Unicode White_Space characters (which contains space, tab,
newline and carriage return, but also e.g. vertical tab and form feed):
the consumed bytes form whitespace characters, the cursor is a no-op when
the first character is not whitespace, and the first character after the
new cursor is never whitespace. -/
theorem ws_spec (s : Parser) :
    (s.ws).text = s.text ∧
    (s.ws).line_offset = s.line_offset ∧
    s.pos ≤ (s.ws).pos ∧
    (s.ws).pos ≤ s.pos + s.rest.length ∧
    WsRun s.rest ((s.ws).pos - s.pos) ∧
    (s.ws).rest = trimLeft s.rest ∧
    (∀ c w, utf8First s.rest = some (c, w) → isWhitespaceCP c = false → s.ws = s) ∧
    (∀ c w, utf8First ((s.ws).rest) = some (c, w) → isWhitespaceCP c = false) := by
  obtain ⟨k, hk1, hk2, hk3, hk4⟩ := trimLeft_spec s.rest
  have hk1' : trimLeft (s.text.drop s.pos) = (s.text.drop s.pos).drop k := hk1
  have hk2' : k ≤ (s.text.drop s.pos).length := hk2
  have hdiff : (s.ws).pos = s.pos + k := by
    show s.pos + ((s.text.drop s.pos).length - (trimLeft (s.text.drop s.pos)).length) =
      s.pos + k
    rw [hk1']
    have e1 : (List.drop k (List.drop s.pos s.text)).length =
        (List.drop s.pos s.text).length - k := List.length_drop _ _
    omega
  have hrest : (s.ws).rest = s.rest.drop k := by
    show s.text.drop (s.ws).pos = (s.text.drop s.pos).drop k
    rw [hdiff, List.drop_drop]
  refine ⟨rfl, rfl, ?_, ?_, ?_, ?_, ?_, ?_⟩
  · rw [hdiff]
    exact Nat.le_add_right _ _
  · rw [hdiff]
    exact Nat.add_le_add_left hk2 _
  · rw [hdiff, Nat.add_sub_cancel_left]
    exact hk3
  · rw [hrest, hk1]
  · intro c w hcw hnw
    have hk0 : k = 0 := by
      cases hk3 with
      | zero => rfl
      | step _ c' w' n heq hws' _ =>
        rw [hcw] at heq
        injection heq with heq'
        cases heq'
        rw [hws'] at hnw
        exact absurd hnw (by simp)
    have hp : (s.ws).pos = s.pos := by
      rw [hdiff, hk0]
      omega
    rw [show s.ws =
      ({ text := s.text, pos := (s.ws).pos, line_offset := s.line_offset } : Parser) from rfl]
    rw [hp]
  · intro c w h'
    rw [hrest] at h'
    exact hk4 c w h'

/-- C6 counterexample: an invariant-satisfying reachable state (after
`new` on three spaces and `ws`, the cursor is 3) on which `set` to the
empty buffer leaves the cursor at 3, strictly past the new text length —
`set` does not preserve the invariant. -/
theorem inv_set_cex :
    (Parser.ws (Parser.new (strBytes "   ") 0)).inv ∧
    ¬ ((Parser.ws (Parser.new (strBytes "   ") 0)).set [] 0).inv := by
  decide

/-- C6 (amended): the invariant `cursor ≤ length text` holds after `new`
and is preserved by every consuming operation — `ws`, `try_tag`, `tag`,
`try_re` and `re` (the latter two for a well-formed matcher) — while
`set` preserves it only under the extra assumption that the current
cursor does not exceed the new text's length; in general `set` can break
it, since it leaves the cursor untouched. -/
theorem inv_preserved :
    (∀ (t : BStr) (lo : Nat), (Parser.new t lo).inv) ∧
    (∀ s : Parser, s.inv → (s.ws).inv) ∧
    (∀ (s : Parser) (t : BStr), s.inv → ((s.try_tag t).2).inv) ∧
    (∀ (s : Parser) (t : BStr), s.inv → ((s.tag t).2).inv) ∧
    (∀ (s : Parser) (r : Regex), r.wf → s.inv → ((s.try_re r).2).inv) ∧
    (∀ (s : Parser) (r : Regex), r.wf → s.inv → ((s.re r).2).inv) ∧
    (∀ (s : Parser) (t : BStr) (lo : Nat), s.pos ≤ t.length → (s.set t lo).inv) := by
  have hws : ∀ s : Parser, s.inv → (s.ws).inv := by
    intro s h
    show s.pos + ((s.text.drop s.pos).length - (trimLeft (s.text.drop s.pos)).length) ≤
      s.text.length
    have h1 := trimLeft_length_le (s.text.drop s.pos)
    have h2 : (s.text.drop s.pos).length = s.text.length - s.pos := List.length_drop _ _
    omega
  have htt : ∀ (s : Parser) (t : BStr), s.inv → ((s.try_tag t).2).inv := by
    intro s t h
    by_cases h1 : s.chars_left < t.length
    · simpa [Parser.try_tag, h1] using h
    · by_cases h2 : slice s.text s.pos (s.pos + t.length) = t
      · simp only [Parser.try_tag, h1, if_false, h2, if_true, if_neg, if_pos]
        show s.pos + t.length ≤ s.text.length
        by_cases he : s.text.length ≤ s.pos
        · have heof : s.is_eof = true := by simpa [Parser.is_eof] using he
          have h1' : t.length = 0 := by
            by_contra hne
            apply h1
            simp [Parser.chars_left, heof]
            omega
          omega
        · have heof : s.is_eof = false := by simpa [Parser.is_eof] using he
          simp [Parser.chars_left, heof] at h1
          omega
      · simpa [Parser.try_tag, h1, h2] using h
  have htre : ∀ (s : Parser) (r : Regex), r.wf → s.inv → ((s.try_re r).2).inv := by
    intro s r hwf h
    rcases hf : r.find (s.text.drop s.pos) with _ | ⟨st, en⟩
    · simpa [Parser.try_re, hf] using h
    · by_cases hst : st = 0
      · subst hst
        have hb := hwf _ _ _ hf
        have h2 : (s.text.drop s.pos).length = s.text.length - s.pos := List.length_drop _ _
        simp [Parser.try_re, hf]
        show s.pos + en ≤ s.text.length
        omega
      · simpa [Parser.try_re, hf, hst] using h
  have htageq : ∀ (s : Parser) (t : BStr), ((s.tag t).2) = ((s.try_tag t).2) := by
    intro s t
    by_cases hb : (s.try_tag t).1 = true
    · simp [Parser.tag, hb]
    · have hb' : (s.try_tag t).1 = false := by
        revert hb
        cases (s.try_tag t).1 <;> simp
      simp [Parser.tag, hb']
  have hreeq : ∀ (s : Parser) (r : Regex), ((s.re r).2) = ((s.try_re r).2) := by
    intro s r
    rcases hv : (s.try_re r).1 with _ | v
    · simp [Parser.re, hv]
    · simp [Parser.re, hv]
  refine ⟨fun t lo => Nat.zero_le _, hws, htt, ?_, htre, ?_, fun s t lo h => h⟩
  · intro s t h
    rw [htageq]
    exact htt s t h
  · intro s r hwf h
    rw [hreeq]
    exact htre s r hwf h

/-- C6 witness: the invariant facts at concrete states, with every
hypothesis discharged concretely. -/
theorem inv_preserved_w :
    (Parser.new ([] : BStr) 0).inv ∧
    (Parser.ws ⟨[32, 97], 1, 0⟩).inv ∧
    ((⟨[97, 98], 0, 0⟩ : Parser).try_tag [97]).2.inv ∧
    ((⟨[97, 98], 0, 0⟩ : Parser).tag [97]).2.inv ∧
    ((⟨[97, 98], 0, 0⟩ : Parser).try_re ⟨[], fun _ => none⟩).2.inv ∧
    ((⟨[97, 98], 0, 0⟩ : Parser).re ⟨[], fun _ => none⟩).2.inv ∧
    ((⟨[97], 1, 0⟩ : Parser).set [98, 99] 0).inv :=
  ⟨inv_preserved.1 [] 0,
   inv_preserved.2.1 _ (by decide),
   inv_preserved.2.2.1 _ _ (by decide),
   inv_preserved.2.2.2.1 _ _ (by decide),
   inv_preserved.2.2.2.2.1 _ _ (fun l st en h => absurd h (by simp)) (by decide),
   inv_preserved.2.2.2.2.2.1 _ _ (fun l st en h => absurd h (by simp)) (by decide),
   inv_preserved.2.2.2.2.2.2 _ _ 0 (by decide)⟩

/-- C7 witness: on " \x0B a"-like input the run is consumed and the model
also certifies the no-op and maximality clauses at concrete inputs. -/
theorem ws_spec_w :
    WsRun (Parser.rest ⟨[32, 11, 97], 0, 0⟩) ((Parser.ws ⟨[32, 11, 97], 0, 0⟩).pos - 0) ∧
    Parser.ws ⟨[97], 0, 0⟩ = ⟨[97], 0, 0⟩ ∧
    isWhitespaceCP 97 = false :=
  ⟨(ws_spec ⟨[32, 11, 97], 0, 0⟩).2.2.2.2.1,
   (ws_spec ⟨[97], 0, 0⟩).2.2.2.2.2.2.1 97 1 rfl (by decide),
   (ws_spec ⟨[32, 11, 97], 0, 0⟩).2.2.2.2.2.2.2 97 1 rfl⟩

/-! Error-loop lemmas. -/

theorem splitNl_ne_nil (t : BStr) : splitNl t ≠ [] := by
  cases t with
  | nil => simp [splitNl]
  | cons b rest =>
    by_cases hb : b = 10
    · simp [splitNl, hb]
    · simp only [splitNl, if_neg hb]
      rcases h : splitNl rest with _ | ⟨s, ss⟩ <;> simp

theorem gsum_splitNl (t : BStr) : gsum (splitNl t) = t.length + 1 := by
  induction t with
  | nil => simp [splitNl, gsum]
  | cons b rest ih =>
    by_cases hb : b = 10
    · simp only [splitNl, if_pos hb, gsum, List.length_cons, List.length_nil]
      omega
    · rcases h : splitNl rest with _ | ⟨s, ss⟩
      · exact absurd h (splitNl_ne_nil rest)
      · rw [h] at ih
        simp only [splitNl, if_neg hb, h, gsum, List.length_cons]
        simp only [gsum] at ih
        omega

theorem gsum_getLast_split (ls : List BStr) (l : BStr) (h : ls.getLast? = some l) :
    gsum ls = gsum ls.dropLast + (l.length + 1) := by
  induction ls with
  | nil => simp at h
  | cons x ls ih =>
    cases ls with
    | nil =>
      simp at h
      subst h
      simp [gsum]
    | cons y ls2 =>
      rw [List.getLast?_cons_cons] at h
      rw [List.dropLast_cons₂]
      have e := ih h
      simp only [gsum] at e ⊢
      omega

theorem rstripCr_length_le (l : BStr) : (rstripCr l).length ≤ l.length := by
  unfold rstripCr
  split
  · rw [List.length_dropLast]
    omega
  · exact Nat.le_refl _

theorem gsum_map_rstrip_le (ls : List BStr) : gsum (ls.map rstripCr) ≤ gsum ls := by
  induction ls with
  | nil => simp [gsum]
  | cons l ls ih =>
    simp only [List.map_cons, gsum]
    have := rstripCr_length_le l
    omega

theorem gsum_append (a b : List BStr) : gsum (a ++ b) = gsum a + gsum b := by
  induction a with
  | nil => simp [gsum]
  | cons x xs ih =>
    have e0 : (x :: xs) ++ b = x :: (xs ++ b) := rfl
    rw [e0]
    simp only [gsum]
    rw [ih]
    omega

theorem gsum_linesOf_le (t : BStr) : gsum (linesOf t) ≤ t.length + 1 := by
  have hg := gsum_splitNl t
  have hmap := gsum_map_rstrip_le (splitNl t).dropLast
  unfold linesOf
  rcases h : (splitNl t).getLast? with _ | l
  · exact absurd (List.getLast?_eq_none_iff.mp h) (splitNl_ne_nil t)
  · have hsplit := gsum_getLast_split (splitNl t) l h
    rcases l with _ | ⟨x, xs⟩
    · simp only [gsum_append, gsum, List.length_nil] at hsplit ⊢
      omega
    · simp only [gsum_append, gsum] at hsplit ⊢
      omega

theorem errLoop_past (ls : List BStr) : ∀ (q lc : Nat), gsum ls ≤ q →
    errLoop ls q lc = Except.ok (lc + ls.length, q - gsum ls, [], eofTkn, []) := by
  induction ls with
  | nil =>
    intro q lc h
    simp [errLoop, gsum]
  | cons line rest ih =>
    intro q lc h
    simp only [gsum] at h
    have h1 : ¬ (q < line.length) := by omega
    have h2 : ¬ (q = line.length) := by omega
    simp only [errLoop]
    rw [if_neg h1, if_neg h2, ih _ _ (by omega)]
    have e1 : lc + 1 + rest.length = lc + (line :: rest).length := by
      simp only [List.length_cons]
      omega
    have e2 : q - (line.length + 1) - gsum rest = q - gsum (line :: rest) := by
      simp only [gsum]
      omega
    rw [e1, e2]

/-- C4 counterexample: on the one-byte buffer "~" the offset 1 is exactly
the total buffer length, yet the reported token is the line-end sentinel,
with the whole line as prefix — not the end-of-file sentinel with empty
prefix the claim requires for every offset at or beyond the buffer
length. -/
theorem error_eof_at_end_cex :
    Parser.error ⟨[126], 0, 0⟩ ⟨1⟩ [109] =
      Except.ok ⟨(1, 2), [[109]], [126], nlTkn, []⟩ ∧
    nlTkn ≠ eofTkn ∧ ([126] : BStr) ≠ ([] : BStr) := by
  decide

/-- C4 (amended): for every offset strictly beyond the total buffer
length, the error carries the end-of-file sentinel token with empty
prefix and suffix, and its column is the leftover offset — what remains
of `p` after the walk subtracted each line's length plus one — plus
one.  At an offset exactly equal to the buffer length the reported
token depends on the text, so that boundary is excluded. -/
theorem error_past_end (t : BStr) (cp lo p : Nat) (msg : BStr) (h : t.length < p) :
    ({ text := t, pos := cp, line_offset := lo } : Parser).error ⟨p⟩ msg =
      Except.ok ⟨(lo + (linesOf t).length, p - gsum (linesOf t) + 1), [msg], [], eofTkn, []⟩ := by
  have hg : gsum (linesOf t) ≤ t.length + 1 := gsum_linesOf_le t
  simp only [Parser.error]
  rw [errLoop_past (linesOf t) p lo (by omega)]

/-- C4 witness: two past the end of the one-byte buffer "~". -/
theorem error_past_end_w :
    Parser.error ⟨[126], 0, 0⟩ ⟨2⟩ [109] =
      Except.ok ⟨(0 + (linesOf [126]).length, 2 - gsum (linesOf [126]) + 1),
        [[109]], [], eofTkn, []⟩ :=
  error_past_end [126] 0 0 2 [109] (by decide)

theorem errLoop_line_end (ls1 : List BStr) (line : BStr) (ls2 : List BStr) :
    ∀ lc : Nat,
    errLoop (ls1 ++ line :: ls2) (gsum ls1 + line.length) lc =
      Except.ok (lc + ls1.length + 1, line.length, line, nlTkn, []) := by
  induction ls1 with
  | nil =>
    intro lc
    simp [errLoop, gsum]
  | cons l ls ih =>
    intro lc
    have h1 : ¬ (gsum (l :: ls) + line.length < l.length) := by
      simp only [gsum]
      omega
    have h2 : ¬ (gsum (l :: ls) + line.length = l.length) := by
      simp only [gsum]
      omega
    have e0 : (l :: ls) ++ line :: ls2 = l :: (ls ++ line :: ls2) := rfl
    rw [e0]
    simp only [errLoop]
    rw [if_neg h1, if_neg h2]
    have e : gsum (l :: ls) + line.length - (l.length + 1) = gsum ls + line.length := by
      simp only [gsum]
      omega
    rw [e, ih]
    have e2 : lc + 1 + ls.length + 1 = lc + (l :: ls).length + 1 := by
      simp only [List.length_cons]
      omega
    rw [e2]

/-- C8: when the residual offset equals the byte length of the line the
walk lands on — the offset is `gsum` of the earlier lines plus that
line's length — the error reports the line-end sentinel token (not a
character of the next line), the whole line as prefix, an empty suffix,
and column residual plus one. -/
theorem error_line_end (t : BStr) (cp lo : Nat) (msg : BStr) (ls1 : List BStr) (line : BStr)
    (ls2 : List BStr) (hsplit : linesOf t = ls1 ++ line :: ls2) (p : Nat)
    (hp : p = gsum ls1 + line.length) :
    ({ text := t, pos := cp, line_offset := lo } : Parser).error ⟨p⟩ msg =
      Except.ok ⟨(lo + ls1.length + 1, line.length + 1), [msg], line, nlTkn, []⟩ := by
  simp only [Parser.error]
  rw [hp, hsplit, errLoop_line_end]

/-- C8 witness: offset 3 of "a\nb" is exactly at the end of its second
line "b". -/
theorem error_line_end_w :
    Parser.error ⟨[97, 10, 98], 0, 0⟩ ⟨3⟩ [109] =
      Except.ok ⟨(0 + 1 + 1, 1 + 1), [[109]], [98], nlTkn, []⟩ :=
  error_line_end [97, 10, 98] 0 0 [109] [[97]] [98] [] (by decide) 3 (by decide)

/-! ASCII totality lemmas. -/

theorem mem_splitNl (t : BStr) : ∀ l ∈ splitNl t, ∀ b ∈ l, b ∈ t := by
  induction t with
  | nil =>
    intro l hl b hb
    simp [splitNl] at hl
    subst hl
    simp at hb
  | cons x rest ih =>
    intro l hl b hb
    by_cases hx : x = 10
    · simp only [splitNl, if_pos hx] at hl
      rcases List.mem_cons.mp hl with hl | hl
      · subst hl
        simp at hb
      · exact List.mem_cons_of_mem x (ih l hl b hb)
    · rcases h : splitNl rest with _ | ⟨s, ss⟩
      · exact absurd h (splitNl_ne_nil rest)
      · simp only [splitNl, if_neg hx, h] at hl
        rcases List.mem_cons.mp hl with hl | hl
        · subst hl
          rcases List.mem_cons.mp hb with hb | hb
          · subst hb
            exact List.mem_cons_self _ _
          · have hs : s ∈ splitNl rest := by
              rw [h]
              exact List.mem_cons_self _ _
            exact List.mem_cons_of_mem _ (ih s hs b hb)
        · have hs : l ∈ splitNl rest := by
            rw [h]
            exact List.mem_cons_of_mem _ hl
          exact List.mem_cons_of_mem _ (ih l hs b hb)

theorem mem_rstripCr (l : BStr) (b : Nat) (h : b ∈ rstripCr l) : b ∈ l := by
  unfold rstripCr at h
  split at h
  · exact List.dropLast_subset l h
  · exact h

theorem mem_linesOf (t : BStr) (l : BStr) (hl : l ∈ linesOf t) (b : Nat) (hb : b ∈ l) :
    b ∈ t := by
  unfold linesOf at hl
  rcases List.mem_append.mp hl with hl | hl
  · obtain ⟨l0, hl0, hmap⟩ := List.mem_map.mp hl
    subst hmap
    exact mem_splitNl t l0 (List.dropLast_subset _ hl0) b (mem_rstripCr l0 b hb)
  · rcases hg : (splitNl t).getLast? with _ | last
    · rw [hg] at hl
      simp at hl
    · rw [hg] at hl
      have hlast : last ∈ splitNl t := List.mem_of_mem_getLast? hg
      rcases last with _ | ⟨x, xs⟩
      · simp at hl
      · simp at hl
        subst hl
        exact mem_splitNl t _ hlast b hb

theorem errLoop_ok_of_ascii (ls : List BStr) :
    (∀ l ∈ ls, ∀ b ∈ l, b < 128) → ∀ (q lc : Nat),
    ∃ out, errLoop ls q lc = Except.ok out := by
  induction ls with
  | nil =>
    intro _ q lc
    exact ⟨_, rfl⟩
  | cons line rest ih =>
    intro h q lc
    by_cases h1 : q < line.length
    · have hbd : ∀ i : Nat, i ≤ line.length → isCharBoundary line i = true := by
        intro i hi
        unfold isCharBoundary
        rcases hg : line.get? i with _ | b
        · have := List.get?_eq_none.mp hg
          simp
          omega
        · have hbm : b ∈ line := List.get?_mem hg
          have hlt : b < 128 := h line (List.mem_cons_self _ _) b hbm
          simp [isContByte]
          omega
      simp only [errLoop]
      rw [if_pos h1]
      rw [if_pos (by rw [hbd q (by omega), hbd (q + 1) (by omega)]; rfl)]
      exact ⟨_, rfl⟩
    · by_cases h2 : q = line.length
      · simp only [errLoop]
        rw [if_neg h1, if_pos h2]
        exact ⟨_, rfl⟩
      · simp only [errLoop]
        rw [if_neg h1, if_neg h2]
        exact ih (fun l hl => h l (List.mem_cons_of_mem _ hl)) _ _

/-- C10 counterexample: on the two-byte buffer holding the single
character e-acute (bytes 195, 169), the token slice at position 0 cuts
the character in half: byte index 1 is not a character boundary, so the
Rust slice `line[pos..pos + 1]` panics and `error` does not return a
`ParsErr`. -/
theorem error_multibyte_panic_cex :
    Parser.error ⟨[195, 169], 0, 0⟩ ⟨0⟩ [109] = Except.error () := by
  decide

/-- C10 (amended): the slices of `error` are always within the line's
bounds, and on ASCII-only text (every byte below 128) every slice index
is also a character boundary, so `error` is total and returns a
`ParsErr` for every position and message; on general UTF-8 text the
one-byte token slice can split a multi-byte character and panic. -/
theorem error_ascii_total (t : BStr) (cp lo p : Nat) (msg : BStr)
    (h : ∀ b ∈ t, b < 128) :
    ∃ e, ({ text := t, pos := cp, line_offset := lo } : Parser).error ⟨p⟩ msg =
      Except.ok e := by
  have hl : ∀ l ∈ linesOf t, ∀ b ∈ l, b < 128 :=
    fun l hll b hb => h b (mem_linesOf t l hll b hb)
  obtain ⟨out, hout⟩ := errLoop_ok_of_ascii (linesOf t) hl p lo
  simp only [Parser.error]
  rw [hout]
  exact ⟨_, rfl⟩

/-- C10 witness: a concrete ASCII buffer. -/
theorem error_ascii_total_w :
    ∃ e, Parser.error ⟨[97], 0, 0⟩ ⟨0⟩ [109] = Except.ok e :=
  error_ascii_total [97] 0 0 0 [109] (by decide)

end Parsimpl
